import Mathlib

/-!
Shallow embedding of the game logic of src/tic_tac_toe_frontend/src/App.js.

The React component keeps six independent pieces of state
(theme, board, xIsNext, scores, winnerInfo, isDraw) and mutates them only
through the handlers handleSquareClick, newGame, resetScores and
toggleTheme.  Each handler is a pure function of the previous state here.

JavaScript conventions are modelled as follows: a board cell holds the
string "X", the string "O" or null, embedded as Option Mark; reading an
array out of range yields undefined, which is falsy exactly like null, so
readCell returns none out of range; an assignment nextBoard[idx] = v at
idx = nextBoard.length grows the array by one, and at larger idx it
creates holes, which read back as undefined and are embedded as none
fillers.  (That last point makes writeCell exact for idx <= length; JS
Array.prototype.every skips holes while the embedding counts them as
unfilled cells, a difference visible only for writes strictly past the
end of the array, which no theorem below relies on.)
-/

inductive Mark where
  | X : Mark
  | O : Mark
deriving DecidableEq, Repr

abbrev Cell := Option Mark

inductive Theme where
  | light : Theme
  | dark : Theme
deriving DecidableEq, Repr

structure Scores where
  X : Nat
  O : Nat
  draws : Nat
deriving DecidableEq, Repr

structure WinnerInfo where
  winner : Option Mark
  line : List Nat
deriving DecidableEq, Repr

structure GameState where
  theme : Theme
  board : List Cell
  xIsNext : Bool
  scores : Scores
  winnerInfo : WinnerInfo
  isDraw : Bool
deriving DecidableEq, Repr

/-- Initial component state: useState initialisers at App.js lines 15-22. -/
def initialState : GameState :=
  ⟨Theme.light, List.replicate 9 none, true, ⟨0, 0, 0⟩, ⟨none, []⟩, false⟩

/-- Array read with JS semantics: out of range yields undefined, i.e. none. -/
def readCell : List Cell → Nat → Cell
  | [], _ => none
  | c :: _, 0 => c
  | _ :: rest, n + 1 => readCell rest n

/-- Array write with JS semantics: in range replaces, past the end the array
grows, with holes embedded as none (see the header comment). -/
def writeCell : List Cell → Nat → Cell → List Cell
  | _ :: rest, 0, v => v :: rest
  | c :: rest, n + 1, v => c :: writeCell rest n v
  | [], 0, v => [v]
  | [], n + 1, v => none :: writeCell [] n v

/-- The fixed 8-triple table of App.js lines 37-46: rows, columns, diagonals,
in the scan order of the source. -/
def lines : List (Nat × Nat × Nat) :=
  [(0, 1, 2), (3, 4, 5), (6, 7, 8),
   (0, 3, 6), (1, 4, 7), (2, 5, 8),
   (0, 4, 8), (2, 4, 6)]

/-- The loop body of calculateWinner (App.js lines 47-51): scan the list of
triples and return the first whose three cells are truthy and equal. -/
def checkLines (squares : List Cell) : List (Nat × Nat × Nat) → WinnerInfo
  | [] => ⟨none, []⟩
  | (a, b, c) :: rest =>
    match readCell squares a with
    | some m =>
      if readCell squares b = some m ∧ readCell squares c = some m then
        ⟨some m, [a, b, c]⟩
      else
        checkLines squares rest
    | none => checkLines squares rest

/-- calculateWinner (App.js lines 36-53). -/
def calculateWinner (squares : List Cell) : WinnerInfo :=
  checkLines squares lines

/-- The mark the current turn plays: xIsNext ? X : O (App.js line 61). -/
def curMark (s : GameState) : Mark :=
  if s.xIsNext then Mark.X else Mark.O

/-- Score update of App.js lines 74-78: increment the winning mark. -/
def addWin (sc : Scores) : Mark → Scores
  | Mark.X => ⟨sc.X + 1, sc.O, sc.draws⟩
  | Mark.O => ⟨sc.X, sc.O + 1, sc.draws⟩

/-- Score update of App.js lines 79-84: increment the draw counter. -/
def addDraw (sc : Scores) : Scores :=
  ⟨sc.X, sc.O, sc.draws + 1⟩

/-- handleSquareClick (App.js lines 56-85).  The guard on line 58 rejects the
click when the game is over or the cell is truthy; otherwise the cell is
written, the winner recomputed, xIsNext flipped unconditionally, and the
scores bumped when the move concluded the round. -/
def handleSquareClick (s : GameState) (idx : Nat) : GameState :=
  if s.winnerInfo.winner.isSome || s.isDraw || (readCell s.board idx).isSome then
    s
  else
    let nextBoard := writeCell s.board idx (some (curMark s))
    let res := calculateWinner nextBoard
    let filled := nextBoard.all Option.isSome
    let draw := !res.winner.isSome && filled
    let scores :=
      match res.winner with
      | some m => addWin s.scores m
      | none => if draw then addDraw s.scores else s.scores
    ⟨s.theme, nextBoard, !s.xIsNext, scores, res, draw⟩

/-- newGame (App.js lines 92-97): clear the board, X starts, no winner, no
draw; scores and theme untouched. -/
def newGame (s : GameState) : GameState :=
  ⟨s.theme, List.replicate 9 none, true, s.scores, ⟨none, []⟩, false⟩

/-- resetScores (App.js lines 104-107): newGame plus zeroed scores. -/
def resetScores (s : GameState) : GameState :=
  ⟨s.theme, List.replicate 9 none, true, ⟨0, 0, 0⟩, ⟨none, []⟩, false⟩

/-- toggleTheme (App.js lines 114-116). -/
def toggleTheme (s : GameState) : GameState :=
  ⟨(match s.theme with
    | Theme.light => Theme.dark
    | Theme.dark => Theme.light),
   s.board, s.xIsNext, s.scores, s.winnerInfo, s.isDraw⟩

/-- The Outcome variant of the spec, derived from the winnerInfo and isDraw
fields exactly as the rendering does (statusText, App.js lines 29-33): a
winner takes precedence, then the draw flag, else in progress. -/
inductive Outcome where
  | inProgress : Outcome
  | win : Mark → List Nat → Outcome
  | draw : Outcome
deriving DecidableEq, Repr

def outcome (s : GameState) : Outcome :=
  match s.winnerInfo.winner with
  | some m => Outcome.win m s.winnerInfo.line
  | none => if s.isDraw then Outcome.draw else Outcome.inProgress

/-- A sequence of clicks applied in order. -/
def playMoves (s : GameState) (moves : List Nat) : GameState :=
  moves.foldl handleSquareClick s

/-- A triple of the table is satisfied on a board when its first cell is
truthy and the three reads agree, mirroring the condition on App.js line 48. -/
def LineSat (l : Nat × Nat × Nat) (squares : List Cell) : Prop :=
  readCell squares l.1 ≠ none ∧
  readCell squares l.2.1 = readCell squares l.1 ∧
  readCell squares l.2.2 = readCell squares l.2.1

instance (l : Nat × Nat × Nat) (squares : List Cell) : Decidable (LineSat l squares) := by
  unfold LineSat
  infer_instance

/-- C9: from a fresh state, the move sequence 0,3,1,4,2 ends with X winning
on the triple 0,1,2 and the scoreboard reading X 1, O 0, draws 0. -/
theorem row_win_scenario :
    (playMoves initialState [0, 3, 1, 4, 2]).winnerInfo = ⟨some Mark.X, [0, 1, 2]⟩ ∧
    (playMoves initialState [0, 3, 1, 4, 2]).scores = ⟨1, 0, 0⟩ := by
  decide

/-- C7: newGame always yields an all-empty board, X to move, and an
in-progress outcome, and never changes the scores. -/
theorem newGame_spec (s : GameState) :
    (newGame s).board = List.replicate 9 none ∧
    (newGame s).xIsNext = true ∧
    outcome (newGame s) = Outcome.inProgress ∧
    (newGame s).scores = s.scores := by
  exact ⟨rfl, rfl, rfl, rfl⟩

/-- C8: resetScores performs exactly the effect of newGame and additionally
zeroes all three score counters. -/
theorem resetScores_spec (s : GameState) :
    (resetScores s).board = (newGame s).board ∧
    (resetScores s).xIsNext = (newGame s).xIsNext ∧
    (resetScores s).winnerInfo = (newGame s).winnerInfo ∧
    (resetScores s).isDraw = (newGame s).isDraw ∧
    (resetScores s).theme = (newGame s).theme ∧
    outcome (resetScores s) = Outcome.inProgress ∧
    (resetScores s).scores = ⟨0, 0, 0⟩ := by
  exact ⟨rfl, rfl, rfl, rfl, rfl, rfl, rfl⟩

/-- C10: the game handlers never change the theme, and toggleTheme changes
nothing but the theme. -/
theorem theme_game_independent (s : GameState) (idx : Nat) :
    (handleSquareClick s idx).theme = s.theme ∧
    (newGame s).theme = s.theme ∧
    (resetScores s).theme = s.theme ∧
    (toggleTheme s).board = s.board ∧
    (toggleTheme s).xIsNext = s.xIsNext ∧
    (toggleTheme s).scores = s.scores ∧
    (toggleTheme s).winnerInfo = s.winnerInfo ∧
    (toggleTheme s).isDraw = s.isDraw := by
  refine ⟨?_, rfl, rfl, rfl, rfl, rfl, rfl, rfl⟩
  unfold handleSquareClick
  by_cases h : (s.winnerInfo.winner.isSome || s.isDraw || (readCell s.board idx).isSome) = true
  · simp [h]
  · simp [h]

/-- C3: a click at index 9 on the fresh board is not rejected and raises
nothing: the mark is written at index 9 (the board grows to ten cells) and
the turn flips, so an out-of-range index proceeds silently instead of
signalling an invalid-argument condition. -/
theorem out_of_range_proceeds_silently :
    (handleSquareClick initialState 9).board.length = 10 ∧
    readCell (handleSquareClick initialState 9).board 9 = some Mark.X ∧
    (handleSquareClick initialState 9).xIsNext = false ∧
    handleSquareClick initialState 9 ≠ initialState := by
  decide

/-! Helper lemmas about the embedded array operations. -/

/-- Reading after writing: the written index returns the written value, every
other index is unchanged (holes past the end read as none on both sides). -/
theorem readCell_writeCell (i : Nat) (b : List Cell) (j : Nat) (v : Cell) :
    readCell (writeCell b i v) j = if j = i then v else readCell b j := by
  induction i generalizing b j with
  | zero =>
    cases b <;> cases j <;> simp [writeCell, readCell]
  | succ n ih =>
    cases b with
    | nil =>
      cases j with
      | zero => simp [writeCell, readCell]
      | succ k =>
        simp only [writeCell, readCell, ih]
        by_cases h : k = n <;> simp [h, readCell]
    | cons c rest =>
      cases j with
      | zero => simp [writeCell, readCell]
      | succ k =>
        simp only [writeCell, readCell, ih]
        by_cases h : k = n <;> simp [h]

/-- How many cells of the board hold the mark m. -/
def countMark (m : Mark) : List Cell → Nat
  | [] => 0
  | c :: rest => (if c = some m then 1 else 0) + countMark m rest

/-- Writing a mark into an empty slot adds exactly one cell with that mark
and leaves the count of the other mark unchanged. -/
theorem countMark_writeCell (i : Nat) (b : List Cell) (m mm : Mark)
    (h : readCell b i = none) :
    countMark mm (writeCell b i (some m)) =
      countMark mm b + (if mm = m then 1 else 0) := by
  induction i generalizing b with
  | zero =>
    cases b with
    | nil =>
      by_cases hm : mm = m <;> simp [writeCell, countMark, hm]
      intro h2
      exact absurd h2.symm hm
    | cons c rest =>
      have hc : c = none := h
      subst hc
      by_cases hm : mm = m <;> simp [writeCell, countMark, hm, Nat.add_comm]
      intro h2
      exact absurd h2.symm hm
  | succ n ih =>
    cases b with
    | nil =>
      have h0 : readCell ([] : List Cell) n = none := by cases n <;> rfl
      simp [writeCell, countMark, ih [] h0, h0]
    | cons c rest =>
      have hr : readCell rest n = none := h
      simp only [writeCell, countMark, ih rest hr]
      ring

/-- An option whose isSome is false is none. -/
theorem isSome_false_eq_none (x : Option Mark) (h : x.isSome = false) : x = none := by
  cases x with
  | none => rfl
  | some m => simp at h

/-- LineSat, unfolded at an explicit triple. -/
theorem lineSat_def (a b c : Nat) (squares : List Cell) :
    LineSat (a, b, c) squares ↔
      (readCell squares a ≠ none ∧
       readCell squares b = readCell squares a ∧
       readCell squares c = readCell squares b) := Iff.rfl

/-- A triple whose first cell reads m is satisfied exactly when the other two
cells also read m. -/
theorem lineSat_iff_of_read (a b c : Nat) (squares : List Cell) (m : Mark)
    (ha : readCell squares a = some m) :
    LineSat (a, b, c) squares ↔
      (readCell squares b = some m ∧ readCell squares c = some m) := by
  rw [lineSat_def, ha]
  constructor
  · rintro ⟨-, h1, h2⟩
    exact ⟨h1, h2.trans h1⟩
  · rintro ⟨h1, h2⟩
    exact ⟨by simp, h1, h2.trans h1.symm⟩

/-- A triple whose first cell is empty is not satisfied. -/
theorem not_lineSat_of_none (a b c : Nat) (squares : List Cell)
    (ha : readCell squares a = none) : ¬ LineSat (a, b, c) squares :=
  fun h => h.1 ha

/-- The scan returns no winner exactly when no triple of the scanned list is
satisfied. -/
theorem checkLines_winner_none_iff (squares : List Cell)
    (ls : List (Nat × Nat × Nat)) :
    (checkLines squares ls).winner = none ↔ ∀ l ∈ ls, ¬ LineSat l squares := by
  induction ls with
  | nil => simp [checkLines]
  | cons l rest ih =>
    obtain ⟨a, b, c⟩ := l
    cases ha : readCell squares a with
    | none =>
      simp only [checkLines, ha, ih, List.mem_cons]
      constructor
      · intro h l hl
        rcases hl with hl | hl
        · subst hl
          exact not_lineSat_of_none a b c squares ha
        · exact h l hl
      · intro h l hl
        exact h l (Or.inr hl)
    | some m =>
      simp only [checkLines, ha]
      by_cases hbc : readCell squares b = some m ∧ readCell squares c = some m
      · rw [if_pos hbc]
        simp only [List.mem_cons]
        constructor
        · intro h
          simp at h
        · intro h
          exact absurd ((lineSat_iff_of_read a b c squares m ha).mpr hbc)
            (h (a, b, c) (Or.inl rfl))
      · rw [if_neg hbc]
        simp only [ih, List.mem_cons]
        constructor
        · intro h l hl
          rcases hl with hl | hl
          · subst hl
            exact fun hs => hbc ((lineSat_iff_of_read a b c squares m ha).mp hs)
          · exact h l hl
        · intro h l hl
          exact h l (Or.inr hl)

/-- When the scan returns a winner, some scanned triple is satisfied, the
reported line is that triple, and the reported mark is the one read at its
first cell. -/
theorem checkLines_eq_some (squares : List Cell) (ls : List (Nat × Nat × Nat))
    (m : Mark) (line : List Nat)
    (h : checkLines squares ls = ⟨some m, line⟩) :
    ∃ l, l ∈ ls ∧ line = [l.1, l.2.1, l.2.2] ∧
      readCell squares l.1 = some m ∧ LineSat l squares := by
  induction ls with
  | nil => simp [checkLines] at h
  | cons l rest ih =>
    obtain ⟨a, b, c⟩ := l
    cases ha : readCell squares a with
    | none =>
      simp only [checkLines, ha] at h
      obtain ⟨l, hl, hrest⟩ := ih h
      exact ⟨l, List.mem_cons_of_mem _ hl, hrest⟩
    | some mm =>
      simp only [checkLines, ha] at h
      by_cases hbc : readCell squares b = some mm ∧ readCell squares c = some mm
      · rw [if_pos hbc] at h
        have hm : mm = m := by
          have := congrArg WinnerInfo.winner h
          simpa using this
        have hline : line = [a, b, c] := by
          have := congrArg WinnerInfo.line h
          simpa using this.symm
        subst hm
        exact ⟨(a, b, c), List.mem_cons_self _ _, hline,
          ha, (lineSat_iff_of_read a b c squares mm ha).mpr hbc⟩
      · rw [if_neg hbc] at h
        obtain ⟨l, hl, hrest⟩ := ih h
        exact ⟨l, List.mem_cons_of_mem _ hl, hrest⟩

/-- The scan is the first satisfied triple of the scanned list, in order. -/
theorem checkLines_eq_find (squares : List Cell) (ls : List (Nat × Nat × Nat)) :
    checkLines squares ls =
      (match ls.find? (fun l => decide (LineSat l squares)) with
       | some l => ⟨readCell squares l.1, [l.1, l.2.1, l.2.2]⟩
       | none => ⟨none, []⟩) := by
  induction ls with
  | nil => rfl
  | cons l rest ih =>
    obtain ⟨a, b, c⟩ := l
    by_cases hsat : LineSat (a, b, c) squares
    · rw [List.find?_cons_of_pos _ (by simpa using hsat)]
      cases ha : readCell squares a with
      | none => exact absurd hsat (not_lineSat_of_none a b c squares ha)
      | some m =>
        simp only [checkLines, ha]
        rw [if_pos ((lineSat_iff_of_read a b c squares m ha).mp hsat)]
    · rw [List.find?_cons_of_neg _ (by simpa using hsat)]
      cases ha : readCell squares a with
      | none =>
        simp only [checkLines, ha]
        exact ih
      | some m =>
        simp only [checkLines, ha]
        rw [if_neg (fun hbc => hsat ((lineSat_iff_of_read a b c squares m ha).mpr hbc))]
        exact ih

/-- A triple satisfied after writing a mark into a board with no satisfied
triple must contain the written cell, so its first cell reads the new mark. -/
theorem lineSat_writeCell_mark (l : Nat × Nat × Nat) (b : List Cell)
    (idx : Nat) (m : Mark)
    (hsat : LineSat l (writeCell b idx (some m)))
    (hold : ¬ LineSat l b) :
    readCell (writeCell b idx (some m)) l.1 = some m := by
  obtain ⟨a, p, q⟩ := l
  obtain ⟨hne, hpa, hqp⟩ := hsat
  by_cases h1 : a = idx
  · rw [readCell_writeCell, if_pos h1]
  · by_cases h2 : p = idx
    · have hp : readCell (writeCell b idx (some m)) p = some m := by
        rw [readCell_writeCell, if_pos h2]
      exact hpa.symm.trans hp
    · by_cases h3 : q = idx
      · have hq : readCell (writeCell b idx (some m)) q = some m := by
          rw [readCell_writeCell, if_pos h3]
        exact (hqp.trans hpa).symm.trans hq
      · exfalso
        apply hold
        have ra : readCell (writeCell b idx (some m)) a = readCell b a := by
          rw [readCell_writeCell, if_neg h1]
        have rp : readCell (writeCell b idx (some m)) p = readCell b p := by
          rw [readCell_writeCell, if_neg h2]
        have rq : readCell (writeCell b idx (some m)) q = readCell b q := by
          rw [readCell_writeCell, if_neg h3]
        exact ⟨ra ▸ hne, rp ▸ ra ▸ hpa, rq ▸ rp ▸ hqp⟩

/-- Unfolding of handleSquareClick when the guard on App.js line 58 does not
fire: the cell is empty, there is no winner yet and no draw yet. -/
theorem handleSquareClick_accept (s : GameState) (idx : Nat)
    (hwn : s.winnerInfo.winner = none) (hdn : s.isDraw = false)
    (hemp : readCell s.board idx = none) :
    handleSquareClick s idx =
      ⟨s.theme,
       writeCell s.board idx (some (curMark s)),
       !s.xIsNext,
       (match (calculateWinner (writeCell s.board idx (some (curMark s)))).winner with
        | some m => addWin s.scores m
        | none =>
          if (!(calculateWinner (writeCell s.board idx (some (curMark s)))).winner.isSome &&
              (writeCell s.board idx (some (curMark s))).all Option.isSome) = true then
            addDraw s.scores
          else s.scores),
       calculateWinner (writeCell s.board idx (some (curMark s))),
       !(calculateWinner (writeCell s.board idx (some (curMark s)))).winner.isSome &&
         (writeCell s.board idx (some (curMark s))).all Option.isSome⟩ := by
  unfold handleSquareClick
  rw [if_neg (by simp [hwn, hdn, hemp])]

/-- State invariant maintained by all four handlers: the stored winnerInfo is
the winner computed from the stored board, the draw flag implies no winner,
and the cell counts of the two marks track whose turn it is. -/
def StateInv (s : GameState) : Prop :=
  s.winnerInfo = calculateWinner s.board ∧
  (s.isDraw = true → s.winnerInfo.winner = none) ∧
  (s.xIsNext = true → countMark Mark.X s.board = countMark Mark.O s.board) ∧
  (s.xIsNext = false → countMark Mark.X s.board = countMark Mark.O s.board + 1)

theorem inv_initial : StateInv initialState :=
  ⟨by decide, by decide, by decide, by decide⟩

theorem inv_newGame (s : GameState) : StateInv (newGame s) := by
  refine ⟨rfl, fun h => ?_, fun _ => rfl, fun h => ?_⟩
  · simp [newGame] at h
  · simp [newGame] at h

theorem inv_reset (s : GameState) : StateInv (resetScores s) := by
  refine ⟨rfl, fun h => ?_, fun _ => rfl, fun h => ?_⟩
  · simp [resetScores] at h
  · simp [resetScores] at h

theorem inv_toggle (s : GameState) (h : StateInv s) : StateInv (toggleTheme s) := h

theorem inv_move (s : GameState) (idx : Nat) (h : StateInv s) :
    StateInv (handleSquareClick s idx) := by
  obtain ⟨hw, hd, hc1, hc2⟩ := h
  by_cases hg : (s.winnerInfo.winner.isSome || s.isDraw || (readCell s.board idx).isSome) = true
  · have hid : handleSquareClick s idx = s := by
      unfold handleSquareClick
      rw [if_pos hg]
    rw [hid]
    exact ⟨hw, hd, hc1, hc2⟩
  · simp only [Bool.not_eq_true] at hg
    obtain ⟨hg12, hg3⟩ := Bool.or_eq_false_iff.mp hg
    obtain ⟨hg1, hg2⟩ := Bool.or_eq_false_iff.mp hg12
    have hwn : s.winnerInfo.winner = none := isSome_false_eq_none _ hg1
    have hemp : readCell s.board idx = none := isSome_false_eq_none _ hg3
    rw [handleSquareClick_accept s idx hwn hg2 hemp]
    refine ⟨rfl, ?_, ?_, ?_⟩
    · intro h2
      dsimp only at h2 ⊢
      cases hres : (calculateWinner (writeCell s.board idx (some (curMark s)))).winner with
      | none => rfl
      | some m =>
        rw [hres] at h2
        simp at h2
    · intro h3
      dsimp only at h3 ⊢
      have hx : s.xIsNext = false := by
        cases hxx : s.xIsNext
        · rfl
        · rw [hxx] at h3
          simp at h3
      have hcur : curMark s = Mark.O := by
        simp [curMark, hx]
      rw [hcur, countMark_writeCell idx s.board Mark.O Mark.X hemp,
          countMark_writeCell idx s.board Mark.O Mark.O hemp]
      simp [hc2 hx]
    · intro h4
      dsimp only at h4 ⊢
      have hx : s.xIsNext = true := by
        cases hxx : s.xIsNext
        · rw [hxx] at h4
          simp at h4
        · rfl
      have hcur : curMark s = Mark.X := by
        simp [curMark, hx]
      rw [hcur, countMark_writeCell idx s.board Mark.X Mark.X hemp,
          countMark_writeCell idx s.board Mark.X Mark.O hemp]
      simp [hc1 hx]

/-- outcome is the in-progress variant exactly when neither conclusion flag
is set. -/
theorem outcome_inProgress_iff (s : GameState) :
    outcome s = Outcome.inProgress ↔
      (s.winnerInfo.winner = none ∧ s.isDraw = false) := by
  cases hw : s.winnerInfo.winner with
  | some m => simp [outcome, hw]
  | none =>
    cases hdr : s.isDraw with
    | false => simp [outcome, hw, hdr]
    | true => simp [outcome, hw, hdr]

/-- The states the component can be in: the initial state closed under the
four event handlers. -/
inductive Reachable : GameState → Prop where
  | init : Reachable initialState
  | move (s : GameState) (idx : Nat) : Reachable s → Reachable (handleSquareClick s idx)
  | round (s : GameState) : Reachable s → Reachable (newGame s)
  | wipe (s : GameState) : Reachable s → Reachable (resetScores s)
  | swap (s : GameState) : Reachable s → Reachable (toggleTheme s)

theorem reachable_inv (s : GameState) (h : Reachable s) : StateInv s := by
  induction h with
  | init => exact inv_initial
  | move s idx h ih => exact inv_move s idx ih
  | round s h ih => exact inv_newGame s
  | wipe s h ih => exact inv_reset s
  | swap s h ih => exact inv_toggle s ih

theorem inv_playMoves (s : GameState) (h : StateInv s) (ms : List Nat) :
    StateInv (playMoves s ms) := by
  induction ms generalizing s with
  | nil => exact h
  | cons i rest ih => exact ih (handleSquareClick s i) (inv_move s i h)

theorem reachable_playMoves (s : GameState) (h : Reachable s) (ms : List Nat) :
    Reachable (playMoves s ms) := by
  induction ms generalizing s with
  | nil => exact h
  | cons i rest ih => exact ih (handleSquareClick s i) (Reachable.move s i h)

/-- The full effect of an accepted move, the property C1 asserts of
handleSquareClick: the cell receives the current mark, xIsNext is negated,
the stored winnerInfo is the scan of the new board, and exactly one of the
win, draw and in-progress consequences follows, with the matching score
update. -/
def acceptedMoveSpec (s : GameState) (idx : Nat) : Prop :=
  readCell (handleSquareClick s idx).board idx = some (curMark s) ∧
  (handleSquareClick s idx).xIsNext = !s.xIsNext ∧
  (handleSquareClick s idx).winnerInfo = calculateWinner (handleSquareClick s idx).board ∧
  (∀ m line, (handleSquareClick s idx).winnerInfo = ⟨some m, line⟩ →
    m = curMark s ∧
    outcome (handleSquareClick s idx) = Outcome.win (curMark s) line ∧
    (handleSquareClick s idx).scores = addWin s.scores (curMark s) ∧
    ∃ l, l ∈ lines ∧ line = [l.1, l.2.1, l.2.2] ∧
      LineSat l (handleSquareClick s idx).board) ∧
  ((handleSquareClick s idx).winnerInfo.winner = none →
    (handleSquareClick s idx).board.all Option.isSome = true →
    outcome (handleSquareClick s idx) = Outcome.draw ∧
    (handleSquareClick s idx).scores = addDraw s.scores) ∧
  ((handleSquareClick s idx).winnerInfo.winner = none →
    (handleSquareClick s idx).board.all Option.isSome = false →
    outcome (handleSquareClick s idx) = Outcome.inProgress ∧
    (handleSquareClick s idx).scores = s.scores)

/-- C1 (amended): an accepted move in a reachable in-progress state writes
the current mark into the empty target cell and concludes exactly as the
spec says, except that xIsNext is negated on every accepted move, the
concluding ones included; when a triple matches, the winning mark is the
current mark and that score counter increments; when the board fills with
no match, the draw counter increments; otherwise scores are unchanged and
play continues. -/
theorem applyMove_accept_spec (s : GameState) (idx : Nat) (hr : Reachable s)
    (hle : idx ≤ 8) (hip : outcome s = Outcome.inProgress)
    (hemp : readCell s.board idx = none) :
    acceptedMoveSpec s idx := by
  obtain ⟨hw, -, -, -⟩ := reachable_inv s hr
  obtain ⟨hwn, hdn⟩ := (outcome_inProgress_iff s).mp hip
  have hnosat : ∀ l ∈ lines, ¬ LineSat l s.board := by
    have hcw : (calculateWinner s.board).winner = none := by
      rw [← hw]
      exact hwn
    exact (checkLines_winner_none_iff s.board lines).mp hcw
  unfold acceptedMoveSpec
  rw [handleSquareClick_accept s idx hwn hdn hemp]
  dsimp only
  refine ⟨?_, rfl, rfl, ?_, ?_, ?_⟩
  · rw [readCell_writeCell]
    simp
  · intro m line heq
    obtain ⟨l, hl, hline, hread, hsat⟩ :=
      checkLines_eq_some (writeCell s.board idx (some (curMark s))) lines m line heq
    have h0 := lineSat_writeCell_mark l s.board idx (curMark s) hsat (hnosat l hl)
    have hm : m = curMark s := Option.some.inj (hread.symm.trans h0)
    subst hm
    refine ⟨rfl, ?_, ?_, l, hl, hline, hsat⟩
    · simp [outcome, heq]
    · simp [heq]
  · intro hres hfill
    constructor
    · simp [outcome, hres, hfill]
    · simp [hres, hfill]
  · intro hres hfill
    constructor
    · simp [outcome, hres, hfill]
    · simp [hres, hfill]

theorem applyMove_accept_spec_witness : acceptedMoveSpec initialState 0 :=
  applyMove_accept_spec initialState 0 Reachable.init (by decide) (by decide) (by decide)

/-- C1 (counterexample): the winning fifth move of the row-win scenario also
flips the turn: before the move X is to play, the move produces a win, and
xIsNext has still been negated afterwards, so the turn is flipped on a
concluding move as well. -/
theorem turn_flips_on_concluding_move :
    (playMoves initialState [0, 3, 1, 4]).xIsNext = true ∧
    (playMoves initialState [0, 3, 1, 4, 2]).winnerInfo.winner = some Mark.X ∧
    (playMoves initialState [0, 3, 1, 4, 2]).xIsNext = false := by
  decide

/-- C2: every click made with the round concluded or on a non-empty cell is
a total no-op: the state, board, turn, outcome and scores included, is
returned unchanged. -/
theorem reject_noop (s : GameState) (idx : Nat)
    (h : outcome s ≠ Outcome.inProgress ∨ (readCell s.board idx).isSome = true) :
    handleSquareClick s idx = s := by
  have hg : (s.winnerInfo.winner.isSome || s.isDraw || (readCell s.board idx).isSome) = true := by
    rcases h with h | h
    · have h2 : ¬(s.winnerInfo.winner = none ∧ s.isDraw = false) :=
        fun hc => h ((outcome_inProgress_iff s).mpr hc)
      cases hw : s.winnerInfo.winner with
      | some m => simp [hw]
      | none =>
        cases hdr : s.isDraw with
        | true => simp [hdr]
        | false => exact absurd ⟨hw, hdr⟩ h2
    · simp [h]
  unfold handleSquareClick
  rw [if_pos hg]

theorem reject_noop_witness :
    handleSquareClick (playMoves initialState [0, 3, 1, 4, 2]) 5 =
      playMoves initialState [0, 3, 1, 4, 2] :=
  reject_noop (playMoves initialState [0, 3, 1, 4, 2]) 5 (Or.inl (by decide))

/-- C4 (amended): whether calculateWinner detects a win does not depend on
the scan order, only which triple is reported does: a winner is returned
exactly when at least one triple of the table is satisfied, and the
returned triple is the first satisfied one in the fixed scan order. -/
theorem calculateWinner_scan_order (b : List Cell) :
    ((calculateWinner b).winner.isSome = true ↔ ∃ l ∈ lines, LineSat l b) ∧
    calculateWinner b =
      (match lines.find? (fun l => decide (LineSat l b)) with
       | some l => ⟨readCell b l.1, [l.1, l.2.1, l.2.2]⟩
       | none => ⟨none, []⟩) := by
  refine ⟨?_, checkLines_eq_find b lines⟩
  constructor
  · intro hs
    by_contra hex
    push_neg at hex
    have hn : (calculateWinner b).winner = none :=
      (checkLines_winner_none_iff b lines).mpr hex
    rw [hn] at hs
    simp at hs
  · rintro ⟨l, hl, hsat⟩
    cases hw : (calculateWinner b).winner with
    | none => exact absurd hsat ((checkLines_winner_none_iff b lines).mp hw l hl)
    | some m => simp

/-- C4 (counterexample): from the reachable in-progress position after the
accepted moves 1,4,2,5,3,7,6,8, the accepted move at cell 0 completes both
the row 0,1,2 and the column 0,3,6: two distinct triples of the table are
satisfied simultaneously after a single new move. -/
theorem double_win_after_one_move :
    Reachable (playMoves initialState [1, 4, 2, 5, 3, 7, 6, 8]) ∧
    outcome (playMoves initialState [1, 4, 2, 5, 3, 7, 6, 8]) = Outcome.inProgress ∧
    readCell (playMoves initialState [1, 4, 2, 5, 3, 7, 6, 8]).board 0 = none ∧
    ((0, 1, 2) : Nat × Nat × Nat) ∈ lines ∧
    ((0, 3, 6) : Nat × Nat × Nat) ∈ lines ∧
    ((0, 1, 2) : Nat × Nat × Nat) ≠ (0, 3, 6) ∧
    LineSat (0, 1, 2)
      (handleSquareClick (playMoves initialState [1, 4, 2, 5, 3, 7, 6, 8]) 0).board ∧
    LineSat (0, 3, 6)
      (handleSquareClick (playMoves initialState [1, 4, 2, 5, 3, 7, 6, 8]) 0).board :=
  ⟨reachable_playMoves initialState Reachable.init [1, 4, 2, 5, 3, 7, 6, 8],
   by decide, by decide, by decide, by decide, by decide, by decide, by decide⟩

/-- C5: along every sequence of moves played from a fresh round, the number
of cells holding X equals the number holding O or exceeds it by exactly
one. -/
theorem move_counts_balanced (s0 : GameState) (ms : List Nat)
    (h : ∀ i ∈ ms, i ≤ 8) :
    countMark Mark.X (playMoves (newGame s0) ms).board =
        countMark Mark.O (playMoves (newGame s0) ms).board ∨
    countMark Mark.X (playMoves (newGame s0) ms).board =
        countMark Mark.O (playMoves (newGame s0) ms).board + 1 := by
  obtain ⟨-, -, hc1, hc2⟩ := inv_playMoves (newGame s0) (inv_newGame s0) ms
  cases hx : (playMoves (newGame s0) ms).xIsNext with
  | true => exact Or.inl (hc1 hx)
  | false => exact Or.inr (hc2 hx)

theorem move_counts_balanced_witness :
    countMark Mark.X (playMoves (newGame initialState) [0, 3, 1]).board =
        countMark Mark.O (playMoves (newGame initialState) [0, 3, 1]).board ∨
    countMark Mark.X (playMoves (newGame initialState) [0, 3, 1]).board =
        countMark Mark.O (playMoves (newGame initialState) [0, 3, 1]).board + 1 :=
  move_counts_balanced initialState [0, 3, 1] (by decide)

/-- C6: in every reachable state the win indicator and the draw indicator
are never both set, and the outcome is the in-progress variant exactly when
neither is set. -/
theorem outcome_exclusive (s : GameState) (h : Reachable s) :
    ¬(s.winnerInfo.winner.isSome = true ∧ s.isDraw = true) ∧
    (outcome s = Outcome.inProgress ↔
      (s.winnerInfo.winner = none ∧ s.isDraw = false)) := by
  obtain ⟨-, hd, -, -⟩ := reachable_inv s h
  refine ⟨?_, outcome_inProgress_iff s⟩
  rintro ⟨h1, h2⟩
  rw [hd h2] at h1
  simp at h1

theorem outcome_exclusive_witness :
    ¬(initialState.winnerInfo.winner.isSome = true ∧ initialState.isDraw = true) ∧
    (outcome initialState = Outcome.inProgress ↔
      (initialState.winnerInfo.winner = none ∧ initialState.isDraw = false)) :=
  outcome_exclusive initialState Reachable.init
